import Mathlib

/-!
Verification of the heuristic document-data normalization and presentation
layer of the reviewed frontend repository.

The development shallowly embeds the JavaScript/TypeScript logic of
- the shape dispatch of `DataTable.tsx` (which render path a raw payload takes),
- the row coercion and fixed column set of `MaterialInvoiceTable`,
- the sorting comparator and CSV export of `StructuredTableView`,
- the regex-based heuristic field extraction of `ResultsDisplay.tsx`
  (`parseToStructuredJson`),
as executable Lean definitions over a JSON-like value type, and proves or
refutes the specification's claims about them.

JavaScript platform builtins that the code calls (`JSON.parse`, `parseFloat`,
`Number` coercion, string relational comparison, `Array.prototype.sort`,
regex matching) are modelled explicitly below.  `Array.prototype.sort` is
modelled as the canonical stable merge sort (`List.mergeSort`); ECMAScript
requires the sort to be stable and leaves the order produced by an
inconsistent comparator implementation-defined.
-/

set_option maxRecDepth 4000

/-- A JavaScript value as it can appear in a backend payload: JSON values
plus `undefined` (the result of reading an absent property).  JavaScript
numbers are modelled as rationals; `NaN` is modelled where needed by
`Option` results of the numeric conversions. -/
inductive JVal : Type where
  | null : JVal
  | undefined : JVal
  | bool : Bool → JVal
  | num : ℚ → JVal
  | str : String → JVal
  | arr : List JVal → JVal
  | obj : List (String × JVal) → JVal

/-- JavaScript truthiness: `false`, `0`, `""`, `null`, `undefined` are falsy,
everything else (including every object and array) is truthy. -/
def truthy : JVal → Bool
  | .null => false
  | .undefined => false
  | .bool b => b
  | .num q => !(decide (q = 0))
  | .str s => !(decide (s = ""))
  | .arr _ => true
  | .obj _ => true

/-- `null` or `undefined`. -/
def isNullish : JVal → Bool
  | .null => true
  | .undefined => true
  | _ => false

/-- Is the value an array (`Array.isArray`)? -/
def isArray : JVal → Bool
  | .arr _ => true
  | _ => false

/-- First-match association-list lookup used to model object property access. -/
def lookupField : List (String × JVal) → String → JVal
  | [], _ => .undefined
  | (k, v) :: rest, key => if k = key then v else lookupField rest key

/-- Property access `value[key]` for a string key: objects look the key up,
every other value (including arrays, whose properties are numeric indices)
yields `undefined`. -/
def JVal.get : JVal → String → JVal
  | .obj l, key => lookupField l key
  | _, _ => .undefined

/-- Optional chaining `base?.key`: `undefined` when the base is nullish. -/
def optChain (base : JVal) (key : String) : JVal :=
  if isNullish base then .undefined else base.get key

/-- `array[i]` for arrays, `undefined` otherwise. -/
def arrayGet : JVal → Nat → JVal
  | .arr xs, i => (xs.getD i .undefined)
  | _, _ => .undefined

/-- `array.length` for arrays (`0` otherwise; the dispatch only reads it
after an `Array.isArray` check). -/
def arrayLength : JVal → Nat
  | .arr xs => xs.length
  | _ => 0

/-- JavaScript strict equality `===` on the modelled values.  Scalars compare
structurally; arrays and objects compare by reference in JavaScript, which a
value model cannot observe, so distinct object occurrences are modelled as
not strictly equal. -/
def strictEq : JVal → JVal → Bool
  | .null, .null => true
  | .undefined, .undefined => true
  | .bool a, .bool b => a == b
  | .num a, .num b => decide (a = b)
  | .str a, .str b => a == b
  | _, _ => false

/-- The fields of an object, for the spread `{...row}`; spreading a
primitive contributes nothing.  (Spreading an array would contribute its
numeric indices as keys; none of the verified claims touch that case.) -/
def objFields : JVal → List (String × JVal)
  | .obj l => l
  | _ => []

/-- Object-literal field assignment: overwrite the first binding of the key
in place, or append a new binding. -/
def objSet (l : List (String × JVal)) (key : String) (v : JVal) :
    List (String × JVal) :=
  match l with
  | [] => [(key, v)]
  | (k, w) :: rest =>
    if k = key then (k, v) :: rest else (k, w) :: objSet rest key v

/-- JavaScript whitespace as recognized by `parseFloat`/`Number`. -/
def isJsWs (c : Char) : Bool :=
  c = ' ' || c = '\t' || c = '\n' || c = '\r' || c = '\x0b' || c = '\x0c'

/-- Drop leading JavaScript whitespace. -/
def skipJsWs : List Char → List Char
  | [] => []
  | c :: rest => if isJsWs c then skipJsWs rest else c :: rest

/-- Longest prefix of decimal digits, with the remainder. -/
def takeDigits : List Char → List Char × List Char
  | [] => ([], [])
  | c :: rest =>
    if c.isDigit then
      let r := takeDigits rest
      (c :: r.1, r.2)
    else
      ([], c :: rest)

/-- Value of a decimal digit string. -/
def digitsToNat : List Char → Nat :=
  List.foldl (fun acc c => acc * 10 + (c.toNat - 48)) 0

/-- Assemble `sign * (ip + frac / 10 ^ flen) * 10 ^ e` as a rational using
only integer arithmetic and `mkRat` (which reduce inside the kernel). -/
def ratOfParts (sign : Int) (ip frac flen : Nat) (e : Int) : ℚ :=
  let mant : Int := sign * ((ip * 10 ^ flen + frac : Nat) : Int)
  match e with
  | .ofNat k => mkRat (mant * ((10 ^ k : Nat) : Int)) (10 ^ flen)
  | .negSucc k => mkRat mant (10 ^ flen * 10 ^ (k + 1))

/-- Optional exponent part `e`/`E` sign digits; if no digit follows the `e`
the exponent is not consumed (`parseFloat("1e") = 1`). -/
def parseExpPart (s : List Char) : Int × List Char :=
  match s with
  | 'e' :: rest | 'E' :: rest =>
    let signRest : Int × List Char :=
      match rest with
      | '-' :: r => (-1, r)
      | '+' :: r => (1, r)
      | _ => (1, rest)
    let d := takeDigits signRest.2
    if d.1 = [] then (0, s) else (signRest.1 * (digitsToNat d.1 : Int), d.2)
  | _ => (0, s)

/-- Model of `parseFloat`: skip leading whitespace, read an optional sign and
the longest decimal-number prefix; `none` models `NaN` (no digit found).
`Infinity` inputs are outside the model (no claim exercises them). -/
def jsParseFloat (s : List Char) : Option ℚ :=
  let s1 := skipJsWs s
  let signRest : Int × List Char :=
    match s1 with
    | '-' :: r => (-1, r)
    | '+' :: r => (1, r)
    | _ => (1, s1)
  let ip := takeDigits signRest.2
  let fp : List Char × List Char :=
    match ip.2 with
    | '.' :: r => takeDigits r
    | _ => ([], ip.2)
  if ip.1 = [] ∧ fp.1 = [] then none
  else
    let e := parseExpPart fp.2
    some (ratOfParts signRest.1 (digitsToNat ip.1) (digitsToNat fp.1) fp.1.length e.1)

/-- Model of the `ToNumber` coercion of a string (`Number(s)`): trim
whitespace, empty means `0`, otherwise the whole remainder must be a decimal
number; `none` models `NaN`. -/
def jsStringToNumber (s : List Char) : Option ℚ :=
  let s1 := skipJsWs s
  if s1 = [] then some 0
  else
    let signRest : Int × List Char :=
      match s1 with
      | '-' :: r => (-1, r)
      | '+' :: r => (1, r)
      | _ => (1, s1)
    let ip := takeDigits signRest.2
    let fp : List Char × List Char :=
      match ip.2 with
      | '.' :: r => takeDigits r
      | _ => ([], ip.2)
    if ip.1 = [] ∧ fp.1 = [] then none
    else
      let e := parseExpPart fp.2
      if skipJsWs e.2 = [] then
        some (ratOfParts signRest.1 (digitsToNat ip.1) (digitsToNat fp.1) fp.1.length e.1)
      else none

/-- Decimal digits of the fractional part of a nonnegative rational, with
fuel (JavaScript prints finitely many digits; the model stops at the fuel). -/
def fracDigits : Nat → ℚ → List Char
  | 0, _ => []
  | fuel + 1, r =>
    if r = 0 then []
    else
      let r10 := r * 10
      let d := ⌊r10⌋
      Char.ofNat (48 + d.toNat % 10) :: fracDigits fuel (r10 - (d : ℚ))

/-- Decimal rendering of a rational, modelling JavaScript number-to-string
conversion on the rational value model. -/
def jsNumToString (q : ℚ) : List Char :=
  let a := |q|
  let ip := (⌊a⌋).toNat
  let fp := a - (⌊a⌋ : ℚ)
  (if q < 0 then ['-'] else []) ++ Nat.toDigits 10 ip ++
    (if fp = 0 then [] else '.' :: fracDigits 40 fp)

mutual

/-- Model of `String(v)` / the string conversion applied by
`Array.prototype.join` to a retained element. -/
def jsToString : JVal → List Char
  | .null => ['n', 'u', 'l', 'l']
  | .undefined => ['u', 'n', 'd', 'e', 'f', 'i', 'n', 'e', 'd']
  | .bool true => ['t', 'r', 'u', 'e']
  | .bool false => ['f', 'a', 'l', 's', 'e']
  | .num q => jsNumToString q
  | .str s => s.data
  | .arr xs => jsJoinElems xs
  | .obj _ => ['[', 'o', 'b', 'j', 'e', 'c', 't', ' ', 'O', 'b', 'j', 'e', 'c', 't', ']']

/-- `Array.prototype.toString`, i.e. `join(",")`, where nullish elements
render as the empty string. -/
def jsJoinElems : List JVal → List Char
  | [] => []
  | [x] => if isNullish x then [] else jsToString x
  | x :: y :: rest =>
    (if isNullish x then [] else jsToString x) ++ ',' :: jsJoinElems (y :: rest)

end

/-- `ToNumber` on the modelled values, for the numeric branch of the abstract
relational comparison.  `none` models `NaN`; arrays and objects (whose
`ToPrimitive` result the claims never exercise) are modelled as `none`. -/
def jsToNumberV : JVal → Option ℚ
  | .num q => some q
  | .bool true => some 1
  | .bool false => some 0
  | .null => some 0
  | .undefined => none
  | .str s => jsStringToNumber s.data
  | .arr _ => none
  | .obj _ => none

/-- JavaScript `a < b` (abstract relational comparison): two strings compare
lexicographically, otherwise both sides are coerced to numbers and any `NaN`
makes the comparison false. -/
def jsLt (a b : JVal) : Bool :=
  match a, b with
  | .str x, .str y => decide (x < y)
  | a, b =>
    match jsToNumberV a, jsToNumberV b with
    | some x, some y => decide (x < y)
    | _, _ => false

/-- Sort direction of the structured-table view. -/
inductive SortDir : Type where
  | asc : SortDir
  | desc : SortDir
deriving DecidableEq

/-- The comparator of `StructuredTableView.currentTableData`:

    if (aVal === bVal) return 0;
    if (aVal === null || aVal === undefined) return 1;
    if (bVal === null || bVal === undefined) return -1;
    const comparison = aVal < bVal ? -1 : 1;
    return sortDirection === 'asc' ? comparison : -comparison; -/
def jsCompare (dir : SortDir) (a b : JVal) : Int :=
  if strictEq a b then 0
  else if isNullish a then 1
  else if isNullish b then -1
  else
    let comparison : Int := if jsLt a b then -1 else 1
    match dir with
    | .asc => comparison
    | .desc => -comparison

/-- The boolean "keep left" relation fed to the stable sort: row `a` may stay
before row `b` when the comparator does not order `b` strictly first. -/
def rowLe (dir : SortDir) (col : String) (a b : JVal) : Bool :=
  decide (jsCompare dir (a.get col) (b.get col) ≤ 0)

/-- Fuel-driven merge of two lists, definitionally reducible (unlike the
well-founded `List.merge`). -/
def mergeFuel (le : α → α → Bool) : Nat → List α → List α → List α
  | _, [], ys => ys
  | _, xs, [] => xs
  | 0, xs, ys => xs ++ ys
  | fuel + 1, x :: xs, y :: ys =>
    if le x y then x :: mergeFuel le fuel xs (y :: ys)
    else y :: mergeFuel le fuel (x :: xs) ys

/-- Reducible merge. -/
def mergeF (le : α → α → Bool) (xs ys : List α) : List α :=
  mergeFuel le (xs.length + ys.length) xs ys

/-- With enough fuel, the reducible merge is the library merge. -/
theorem mergeFuel_eq_merge (le : α → α → Bool) :
    ∀ (fuel : Nat) (xs ys : List α), xs.length + ys.length ≤ fuel →
      mergeFuel le fuel xs ys = List.merge xs ys le := by
  intro fuel
  induction fuel with
  | zero =>
    intro xs ys h
    cases xs with
    | nil => simp [mergeFuel]
    | cons x xs => simp only [List.length_cons] at h; omega
  | succ fuel ih =>
    intro xs ys h
    match xs, ys with
    | [], ys => simp [mergeFuel]
    | x :: xs, [] => simp [mergeFuel]
    | x :: xs, y :: ys =>
      rw [List.cons_merge_cons]
      simp only [List.length_cons] at h
      simp only [mergeFuel]
      by_cases hle : le x y
      · rw [if_pos hle, if_pos hle, ih xs (y :: ys) (by simp; omega)]
      · rw [if_neg hle, if_neg hle, ih (x :: xs) ys (by simp; omega)]

/-- `mergeF` is `List.merge`. -/
theorem mergeF_eq_merge (le : α → α → Bool) (xs ys : List α) :
    mergeF le xs ys = List.merge xs ys le :=
  mergeFuel_eq_merge le _ xs ys (Nat.le_refl _)

/-- Fuel-driven stable merge sort, definitionally reducible (unlike the
well-founded `List.mergeSort`) and proved below to agree with it whenever
the fuel covers the length. -/
def mergeSortF (le : α → α → Bool) : Nat → List α → List α
  | _, [] => []
  | _, [a] => [a]
  | 0, l => l
  | fuel + 1, a :: b :: xs =>
    let n := (xs.length + 2 + 1) / 2
    mergeF le (mergeSortF le fuel ((a :: b :: xs).take n))
      (mergeSortF le fuel ((a :: b :: xs).drop n))

/-- The stable merge sort modelling `Array.prototype.sort`. -/
def jsSort (le : α → α → Bool) (l : List α) : List α :=
  mergeSortF le l.length l

/-- With enough fuel, the reducible sort is the library merge sort. -/
theorem mergeSortF_eq_mergeSort (le : α → α → Bool) :
    ∀ (fuel : Nat) (l : List α), l.length ≤ fuel →
      mergeSortF le fuel l = l.mergeSort le := by
  intro fuel
  induction fuel with
  | zero =>
    intro l hl
    match l, hl with
    | [], _ => simp [mergeSortF]
  | succ fuel ih =>
    intro l hl
    match l with
    | [] => simp [mergeSortF]
    | [a] => simp [mergeSortF]
    | a :: b :: xs =>
      rw [List.mergeSort]
      simp only [mergeSortF, List.splitInTwo_fst, List.splitInTwo_snd]
      have hlen : (a :: b :: xs).length = xs.length + 2 := by simp
      have h1 : ((a :: b :: xs).take ((xs.length + 2 + 1) / 2)).length ≤ fuel := by
        simp only [List.length_take, hlen]
        simp only [List.length_cons] at hl
        omega
      have h2 : ((a :: b :: xs).drop ((xs.length + 2 + 1) / 2)).length ≤ fuel := by
        simp only [List.length_drop, hlen]
        simp only [List.length_cons] at hl
        omega
      rw [ih _ h1, ih _ h2, mergeF_eq_merge]
      simp

/-- `jsSort` is `List.mergeSort`. -/
theorem jsSort_eq_mergeSort (le : α → α → Bool) (l : List α) :
    jsSort le l = l.mergeSort le :=
  mergeSortF_eq_mergeSort le l.length l (Nat.le_refl _)

/-- The sort applied by `currentTableData`: only when a sort column is set
and the table is nonempty is `[...tableData].sort(comparator)` executed,
modelled as the stable merge sort. -/
def currentTableSort (col : String) (dir : SortDir) (rows : List JVal) :
    List JVal :=
  if col = "" || rows.isEmpty then rows
  else jsSort (rowLe dir col) rows

/-- File type tag handed to `DataTable`. -/
inductive FileType : Type where
  | image : FileType
  | pdf : FileType
  | excel : FileType
deriving DecidableEq

/-- The render path selected by the `DataTable` component body. -/
inductive RenderPath : Type where
  | noData : RenderPath
  | excelView : RenderPath
  | pdfView : RenderPath
  | invoiceTableView : RenderPath
  | keyedInvoiceView : RenderPath
  | recordArrayView : RenderPath
  | ocrFallback : RenderPath
deriving DecidableEq

/-- `firstItem && (firstItem.Product || firstItem.Batch || firstItem.HSN ||
firstItem.Amount || firstItem.Rate || firstItem.Qty)` on `data[0]`. -/
def hasInvoiceFields (firstItem : JVal) : Bool :=
  truthy firstItem &&
    (truthy (firstItem.get ("Product")) || truthy (firstItem.get ("Batch")) ||
      truthy (firstItem.get ("HSN")) || truthy (firstItem.get ("Amount")) ||
      truthy (firstItem.get ("Rate")) || truthy (firstItem.get ("Qty")))

/-- The shape dispatch of the `DataTable` component, in source order:
1. falsy payload → empty state;
2. `fileType === 'excel'` → excel renderer;
3. `fileType === 'pdf'` → pdf renderer;
4. `data.type === 'invoice' || data.tables` → `InvoiceTable`;
5. `Array.isArray(data.data) && data.metadata?.standardHeaders` →
   invoice tabs over `MaterialInvoiceTable`;
6. `Array.isArray(data) && data.length > 0` and the first element has one of
   the known invoice fields → `MaterialInvoiceTable`;
7. otherwise the OCR renderer. -/
def dataTableDispatch (fileType : FileType) (data : JVal) : RenderPath :=
  if !truthy data then .noData
  else if fileType = .excel then .excelView
  else if fileType = .pdf then .pdfView
  else if strictEq (data.get ("type")) (.str "invoice") || truthy (data.get ("tables")) then
    .invoiceTableView
  else if isArray (data.get ("data")) && truthy (optChain (data.get ("metadata")) ("standardHeaders")) then
    .keyedInvoiceView
  else if isArray data && decide (0 < arrayLength data) && hasInvoiceFields (arrayGet data 0) then
    .recordArrayView
  else .ocrFallback

/-- The fixed column set of `MaterialInvoiceTable` (the `field` names of
`standardColumns`, also the `headers` list of its PDF export). -/
def materialColumns : List String :=
  ["Product", "Batch", "HSN", "Qty", "MRP", "Rate", "Amount", "SGST", "CGST"]

/-- The record headers do not depend on the rows at all. -/
def recordArrayHeaders (_rows : List JVal) : List String :=
  materialColumns

/-- Modelled from the spec (§4.3, `RecordArray` normalization): headers as
the union of keys across all rows, preserving first-seen key order.  Used to
compare the specified header rule with the implemented one. -/
def firstSeenKeyUnion (rows : List JVal) : List String :=
  rows.foldl
    (fun acc r =>
      (objFields r).foldl
        (fun acc2 kv => if acc2.contains kv.1 then acc2 else acc2 ++ [kv.1])
        acc)
    []

/-- The numeric fields coerced by the `rows` memo of `MaterialInvoiceTable`. -/
def numericFields : List String :=
  ["Qty", "MRP", "Rate", "Amount", "SGST", "CGST"]

/-- One field coercion:
`typeof v === 'string' ? parseFloat(v) || 0 : v || 0`
(a failed `parseFloat` yields `NaN`, and `NaN || 0` is `0`). -/
def coerceNumField (v : JVal) : JVal :=
  match v with
  | .str s =>
    .num (match jsParseFloat s.data with
          | some q => q
          | none => 0)
  | v => if truthy v then v else .num 0

/-- One prepared row of `MaterialInvoiceTable`:
`{ id: index, ...row, Qty: …, MRP: …, Rate: …, Amount: …, SGST: …, CGST: … }`. -/
def materialRow (i : Nat) (row : JVal) : JVal :=
  let base := [(("id" : String), JVal.num i)]
  let spread := (objFields row).foldl (fun acc kv => objSet acc kv.1 kv.2) base
  let final :=
    numericFields.foldl (fun acc f => objSet acc f (coerceNumField (row.get f))) spread
  .obj final

/-- The prepared row list (`data.map((row, index) => …)`). -/
def materialRows (data : List JVal) : List JVal :=
  (List.range data.length).zip data |>.map (fun p => materialRow p.1 p.2)

/-- Double every double-quote character (`value.replace(/"/g, '""')`). -/
def escQuotes (s : List Char) : List Char :=
  s.flatMap (fun c => if c = '"' then ['"', '"'] else [c])

/-- One CSV field of `exportToCSV`:

    const value = row[header];
    if (typeof value === 'string' && (value.includes(',') || value.includes('"'))) {
      return `"${value.replace(/"/g, '""')}"`;
    }
    return value || '';

followed by the string conversion `join(',')` applies to a non-string result. -/
def csvField (v : JVal) : List Char :=
  match v with
  | .str s =>
    if s.data.contains ',' || s.data.contains '"' then
      '"' :: escQuotes s.data ++ ['"']
    else if truthy (.str s) then s.data
    else []
  | v => if truthy v then jsToString v else []

/-- `List.intercalate` on character lists, kept local for easy induction. -/
def joinWith (c : Char) : List (List Char) → List Char
  | [] => []
  | l :: rest => l ++ (rest.flatMap (fun x => c :: x))

/-- One data line: `headers.map(h => field(row[h])).join(',')`. -/
def csvLine (headers : List String) (row : JVal) : List Char :=
  joinWith ',' (headers.map (fun h => csvField (row.get h)))

/-- The full CSV text: `[headers.join(','), ...rows.map(line)].join('\n')`. -/
def csvContent (headers : List String) (rows : List JVal) : List Char :=
  joinWith '\n' ((joinWith ',' (headers.map String.data)) :: rows.map (csvLine headers))

/-- Prepend a character onto the first piece of a piece list. -/
def consHead (c : Char) : List (List Char) → List (List Char)
  | [] => [[c]]
  | h :: t => (c :: h) :: t

/-- Split on a separator character (no quote awareness), for the spec's
line splitting. -/
def splitOnChar (c : Char) : List Char → List (List Char)
  | [] => [[]]
  | x :: rest =>
    if x = c then [] :: splitOnChar c rest
    else consHead x (splitOnChar c rest)

/-- Scanner mode of the quote-aware field splitter: inside a plain field,
inside a quoted section, or just after a closing quote. -/
inductive PMode : Type where
  | plain : PMode
  | quoted : PMode
  | closing : PMode

/-- Modelled from the spec (§8 round-trip): scan one CSV line splitting on
commas while respecting quoted sections; `""` inside a quoted section is a
literal quote; after a closing quote a comma or the line end is expected
(stray characters, which the encoder never produces, are skipped).  The
current field is accumulated in reverse. -/
def pfGo : PMode → List Char → List Char → List (List Char)
  | _, acc, [] => [acc.reverse]
  | .plain, acc, c :: rest =>
    if c = '"' then pfGo .quoted acc rest
    else if c = ',' then acc.reverse :: pfGo .plain [] rest
    else pfGo .plain (c :: acc) rest
  | .quoted, acc, '"' :: '"' :: rest => pfGo .quoted ('"' :: acc) rest
  | .quoted, acc, '"' :: rest => pfGo .closing acc rest
  | .quoted, acc, c :: rest => pfGo .quoted (c :: acc) rest
  | .closing, acc, c :: rest =>
    if c = ',' then acc.reverse :: pfGo .plain [] rest
    else pfGo .closing acc rest

/-- Split one CSV line on commas, respecting quoted fields. -/
def parseFields (cs : List Char) : List (List Char) :=
  pfGo .plain [] cs

/-- Modelled from the spec (§8 round-trip): parse CSV text back into a grid
by splitting into lines and splitting each line on commas while respecting
quoted fields. -/
def specCsvParse (cs : List Char) : List (List (List Char)) :=
  (splitOnChar '\n' cs).map parseFields

/-- Does the association list bind the key? -/
def hasKey (l : List (String × JVal)) (k : String) : Bool :=
  l.any (fun kv => kv.1 = k)

/-- Prepend an object member parsed earlier in the text: a duplicate key
keeps this first position but takes the value of the later (overwriting)
occurrence, as `JSON.parse` does. -/
def objPrependMember (k : String) (v : JVal) (l : List (String × JVal)) :
    List (String × JVal) :=
  if hasKey l k then (k, lookupField l k) :: l.filter (fun kv => !(kv.1 = k))
  else (k, v) :: l

/-- JSON whitespace (space, tab, line feed, carriage return only). -/
def isJsonWs (c : Char) : Bool :=
  c = ' ' || c = '\t' || c = '\n' || c = '\r'

/-- Drop leading JSON whitespace. -/
def skipJsonWs : List Char → List Char
  | [] => []
  | c :: rest => if isJsonWs c then skipJsonWs rest else c :: rest

/-- Value of a hexadecimal digit. -/
def hexDigitVal (c : Char) : Option Nat :=
  if c.isDigit then some (c.toNat - 48)
  else if 'a' ≤ c && c ≤ 'f' then some (c.toNat - 87)
  else if 'A' ≤ c && c ≤ 'F' then some (c.toNat - 55)
  else none

/-- Body of a JSON string after the opening quote: characters until the
closing quote, decoding escapes and rejecting raw control characters. -/
def jsonStringBody : Nat → List Char → Option (List Char × List Char)
  | 0, _ => none
  | _, [] => none
  | fuel + 1, c :: rest =>
    if c = '"' then some ([], rest)
    else if c = '\\' then
      match rest with
      | [] => none
      | e :: rest2 =>
        let dec : Option (Char × List Char) :=
          if e = '"' then some ('"', rest2)
          else if e = '\\' then some ('\\', rest2)
          else if e = '/' then some ('/', rest2)
          else if e = 'b' then some ('\x08', rest2)
          else if e = 'f' then some ('\x0c', rest2)
          else if e = 'n' then some ('\n', rest2)
          else if e = 'r' then some ('\r', rest2)
          else if e = 't' then some ('\t', rest2)
          else if e = 'u' then
            match rest2 with
            | h1 :: h2 :: h3 :: h4 :: rest3 =>
              match hexDigitVal h1, hexDigitVal h2, hexDigitVal h3, hexDigitVal h4 with
              | some a, some b, some c2, some d =>
                some (Char.ofNat (((a * 16 + b) * 16 + c2) * 16 + d), rest3)
              | _, _, _, _ => none
            | _ => none
          else none
        match dec with
        | some (ch, r) =>
          match jsonStringBody fuel r with
          | some (s, r2) => some (ch :: s, r2)
          | none => none
        | none => none
    else if c.toNat < 32 then none
    else
      match jsonStringBody fuel rest with
      | some (s, r2) => some (c :: s, r2)
      | none => none

/-- JSON integer part: `0`, or a nonzero digit followed by digits
(leading zeros are rejected, as `JSON.parse` does). -/
def jsonIntPart : List Char → Option (Nat × List Char)
  | [] => none
  | '0' :: rest =>
    match rest with
    | c2 :: _ => if c2.isDigit then none else some (0, rest)
    | [] => some (0, [])
  | c :: rest =>
    if c.isDigit then
      let d := takeDigits (c :: rest)
      some (digitsToNat d.1, d.2)
    else none

/-- JSON number: `-? int frac? exp?`, strict per the JSON grammar. -/
def parseJsonNumber (s : List Char) : Option (ℚ × List Char) :=
  let signRest : Int × List Char :=
    match s with
    | '-' :: r => (-1, r)
    | _ => (1, s)
  match jsonIntPart signRest.2 with
  | none => none
  | some (ip, s2) =>
    let fracRes : Option ((Nat × Nat) × List Char) :=
      match s2 with
      | '.' :: r =>
        let d := takeDigits r
        if d.1 = [] then none
        else some ((digitsToNat d.1, d.1.length), d.2)
      | _ => some ((0, 0), s2)
    match fracRes with
    | none => none
    | some (fq, s3) =>
      let expRes : Option (Int × List Char) :=
        match s3 with
        | 'e' :: r | 'E' :: r =>
          let sgnD : Int × List Char :=
            match r with
            | '-' :: r2 => (-1, r2)
            | '+' :: r2 => (1, r2)
            | _ => (1, r)
          let d := takeDigits sgnD.2
          if d.1 = [] then none else some (sgnD.1 * (digitsToNat d.1 : Int), d.2)
        | _ => some (0, s3)
      match expRes with
      | none => none
      | some (e, s4) =>
        some (ratOfParts signRest.1 ip fq.1 fq.2 e, s4)

mutual

/-- Model of `JSON.parse` on one value, with fuel; `none` models a thrown
`SyntaxError`. -/
def parseJsonValue : Nat → List Char → Option (JVal × List Char)
  | 0, _ => none
  | fuel + 1, s0 =>
    match skipJsonWs s0 with
    | [] => none
    | '"' :: rest =>
      match jsonStringBody (rest.length + 1) rest with
      | some (cs, r) => some (.str (String.mk cs), r)
      | none => none
    | '[' :: rest =>
      match skipJsonWs rest with
      | ']' :: r => some (.arr [], r)
      | rest1 => parseJsonElems fuel rest1
    | '{' :: rest =>
      match skipJsonWs rest with
      | '}' :: r => some (.obj [], r)
      | rest1 => parseJsonMembers fuel rest1
    | 't' :: 'r' :: 'u' :: 'e' :: r => some (.bool true, r)
    | 'f' :: 'a' :: 'l' :: 's' :: 'e' :: r => some (.bool false, r)
    | 'n' :: 'u' :: 'l' :: 'l' :: r => some (.null, r)
    | s =>
      match parseJsonNumber s with
      | some (q, r) => some (.num q, r)
      | none => none

/-- Array elements after the opening bracket (at least one element). -/
def parseJsonElems : Nat → List Char → Option (JVal × List Char)
  | 0, _ => none
  | fuel + 1, s =>
    match parseJsonValue fuel s with
    | none => none
    | some (v, rest) =>
      match skipJsonWs rest with
      | ',' :: rest2 =>
        match parseJsonElems fuel rest2 with
        | some (.arr vs, r) => some (.arr (v :: vs), r)
        | _ => none
      | ']' :: rest2 => some (.arr [v], rest2)
      | _ => none

/-- Object members after the opening brace (at least one member); a repeated
key keeps its first position with the later value, as `JSON.parse` does. -/
def parseJsonMembers : Nat → List Char → Option (JVal × List Char)
  | 0, _ => none
  | fuel + 1, s =>
    match skipJsonWs s with
    | '"' :: rest =>
      match jsonStringBody (rest.length + 1) rest with
      | none => none
      | some (keyCs, r1) =>
        match skipJsonWs r1 with
        | ':' :: r2 =>
          match parseJsonValue fuel r2 with
          | none => none
          | some (v, r3) =>
            let key := String.mk keyCs
            match skipJsonWs r3 with
            | ',' :: r4 =>
              match parseJsonMembers fuel r4 with
              | some (.obj l, r5) => some (.obj (objPrependMember key v l), r5)
              | _ => none
            | '}' :: r4 => some (.obj [(key, v)], r4)
            | _ => none
        | _ => none
    | _ => none

end

/-- `JSON.parse`: parse one value and require only whitespace to remain. -/
def jsonParse (s : String) : Option JVal :=
  match parseJsonValue (2 * s.length + 8) s.data with
  | some (v, rest) => if skipJsonWs rest = [] then some v else none
  | none => none

/-- The `parsedData` memo of `StructuredTableView`: a string payload is
`JSON.parse`d with the failure caught (yielding `null`), any other payload is
used as-is. -/
def parsedDataOf (data : JVal) : JVal :=
  match data with
  | .str s =>
    match jsonParse s with
    | some v => v
    | none => .null
  | v => v

/-- Whether `StructuredTableView` renders the visible
"No structured data available" message instead of the table view
(the `if (!parsedData)` early return). -/
def structuredViewShowsNoData (data : JVal) : Bool :=
  !truthy (parsedDataOf data)

/-- A small regular-expression syntax sufficient for the extraction
patterns of `parseToStructuredJson`. -/
inductive RE : Type where
  | ch : (Char → Bool) → RE
  | seq : RE → RE → RE
  | alt : RE → RE → RE
  | rep : Nat → Option Nat → RE → RE

/-- Size of a pattern, used to budget matcher fuel. -/
def reSize : RE → Nat
  | .ch _ => 1
  | .seq a b => reSize a + reSize b + 1
  | .alt a b => reSize a + reSize b + 1
  | .rep _ _ r => reSize r + 1

/-- Backtracking matcher: all suffixes remaining after a match at the start
of the input, in JavaScript preference order (alternatives left first,
quantifiers greedy).  Structurally recursive on a fuel that the callers make
generous enough; a repetition step must consume input, which every pattern
below satisfies. -/
def reMatches : Nat → RE → List Char → List (List Char)
  | 0, _, _ => []
  | _ + 1, .ch p, s =>
    match s with
    | [] => []
    | c :: rest => if p c then [rest] else []
  | fuel + 1, .seq a b, s => (reMatches fuel a s).flatMap (reMatches fuel b)
  | fuel + 1, .alt a b, s => reMatches fuel a s ++ reMatches fuel b s
  | fuel + 1, .rep lo hi r, s =>
    match hi with
    | some 0 => [s]
    | _ =>
      let hi2 : Option Nat :=
        match hi with
        | some (n + 1) => some n
        | some 0 => some 0
        | none => none
      let more :=
        (reMatches fuel r s).flatMap (fun s2 =>
          if s2.length < s.length then reMatches fuel (.rep (lo - 1) hi2 r) s2
          else [])
      if lo = 0 then more ++ [s] else more

/-- Fuel sufficient for the matcher on the given input. -/
def reFuel (re : RE) (s : List Char) : Nat :=
  (reSize re + 2) * (s.length + 2)

/-- All matches of a global regex, scanning left to right and resuming after
each match, as `String.prototype.match` with the `g` flag does. -/
def reAllMatches (re : RE) : Nat → List Char → List (List Char)
  | 0, _ => []
  | fuel + 1, s =>
    match (reMatches (reFuel re s) re s).head? with
    | some rest =>
      let m := s.take (s.length - rest.length)
      if m.isEmpty then
        match s with
        | [] => []
        | _ :: t => reAllMatches re fuel t
      else m :: reAllMatches re fuel rest
    | none =>
      match s with
      | [] => []
      | _ :: t => reAllMatches re fuel t

/-- Run a global regex over a string. -/
def reMatchAll (re : RE) (s : String) : List (List Char) :=
  reAllMatches re (s.data.length + 1) s.data

/-- `\d` (ASCII digits). -/
def reDigit : RE := .ch Char.isDigit

/-- A literal character. -/
def reChr (c : Char) : RE := .ch (fun x => x = c)

/-- The amount pattern of `parseToStructuredJson`:
`/\d{1,3}(?:,\d{3})*\.\d{2}/g`. -/
def amountRE : RE :=
  .seq (.rep 1 (some 3) reDigit)
    (.seq (.rep 0 none (.seq (reChr ',') (.rep 3 (some 3) reDigit)))
      (.seq (reChr '.') (.rep 2 (some 2) reDigit)))

/-- The date pattern of `parseToStructuredJson`:
`/\d{1,2}\/\d{1,2}\/\d{4}|\d{1,2}\s+[A-Za-z]+\s+\d{4}/g`. -/
def dateRE : RE :=
  .alt
    (.seq (.rep 1 (some 2) reDigit)
      (.seq (reChr '/')
        (.seq (.rep 1 (some 2) reDigit)
          (.seq (reChr '/') (.rep 4 (some 4) reDigit)))))
    (.seq (.rep 1 (some 2) reDigit)
      (.seq (.rep 1 none (.ch isJsWs))
        (.seq (.rep 1 none (.ch Char.isAlpha))
          (.seq (.rep 1 none (.ch isJsWs)) (.rep 4 (some 4) reDigit)))))

/-- The extracted amounts:
`(text.match(amountRE) || []).map(a => parseFloat(a.replace(/,/g, '')))`;
`none` entries would model `NaN` results. -/
def amountsOf (text : String) : List (Option ℚ) :=
  (reMatchAll amountRE text).map
    (fun m => jsParseFloat (m.filter (fun c => !(c = ','))))

/-- The extracted dates:
`text.match(dateRE) || []`, each match kept as its raw string. -/
def datesOf (text : String) : List String :=
  (reMatchAll dateRE text).map String.mk

/-- A key bound by no entry of the association list looks up to `undefined`. -/
theorem lookupField_eq_undefined (l : List (String × JVal)) (k : String)
    (h : ∀ kv ∈ l, kv.1 ≠ k) : lookupField l k = .undefined := by
  induction l with
  | nil => rfl
  | cons kv rest ih =>
    have hk : kv.1 ≠ k := h kv (List.mem_cons_self kv rest)
    simp only [lookupField, if_neg hk]
    exact ih (fun kv2 hm => h kv2 (List.mem_cons_of_mem kv hm))

/-- C1 (amended): the `DataTable` dispatch never inspects `invoiceNo`,
`items` or `grandTotal`.  A payload object carrying those three fields whose
keys include none of the markers the dispatch actually checks (`type`,
`tables`, `data`) is routed to the OCR fallback renderer, not to an invoice
rendering path. -/
theorem claim1_amended (l : List (String × JVal))
    (hinv : truthy (lookupField l ("invoiceNo")) = true)
    (hitems : isArray (lookupField l ("items")) = true)
    (hgt : truthy (lookupField l ("grandTotal")) = true)
    (htype : ∀ kv ∈ l, kv.1 ≠ "type")
    (htables : ∀ kv ∈ l, kv.1 ≠ "tables")
    (hdata : ∀ kv ∈ l, kv.1 ≠ "data") :
    dataTableDispatch .image (.obj l) = .ocrFallback := by
  have h1 := lookupField_eq_undefined l ("type") htype
  have h2 := lookupField_eq_undefined l ("tables") htables
  have h3 := lookupField_eq_undefined l ("data") hdata
  simp only [dataTableDispatch, JVal.get, h1, h2, h3]
  rfl

/-- C1 (counterexample): a raw payload with exactly the fields `invoiceNo`,
`items` (an array) and `grandTotal` is dispatched to the OCR fallback, not
to any invoice rendering path, refuting the claimed `InvoiceDocument`
classification and its claimed precedence. -/
theorem claim1_counterexample :
    dataTableDispatch .image
        (.obj [("invoiceNo", .str "INV-1"), ("items", .arr []),
               ("grandTotal", .str "20.00")]) = .ocrFallback ∧
      RenderPath.ocrFallback ≠ .invoiceTableView ∧
      RenderPath.ocrFallback ≠ .keyedInvoiceView ∧
      RenderPath.ocrFallback ≠ .recordArrayView :=
  ⟨rfl, by decide, by decide, by decide⟩

/-- C1 (witness): the amended theorem applied to the three-field payload. -/
theorem claim1_witness :
    dataTableDispatch .image
        (.obj [("invoiceNo", .str "INV-1"), ("items", .arr []),
               ("grandTotal", .str "20.00")]) = .ocrFallback :=
  claim1_amended
    [("invoiceNo", .str "INV-1"), ("items", .arr []), ("grandTotal", .str "20.00")]
    (by decide) (by decide) (by decide) (by decide) (by decide) (by decide)

/-- C2 (counterexample): an input that classifies to the record-array path
does not get the key union as headers: the row key `Foo` is missing from the
rendered columns, while `Batch` is a column although no row carries it. -/
theorem claim2_counterexample :
    dataTableDispatch .image
        (.arr [.obj [("Foo", .str "bar"), ("Product", .str "Widget")]])
        = .recordArrayView ∧
      firstSeenKeyUnion [.obj [("Foo", .str "bar"), ("Product", .str "Widget")]]
        = ["Foo", "Product"] ∧
      recordArrayHeaders [.obj [("Foo", .str "bar"), ("Product", .str "Widget")]]
        ≠ ["Foo", "Product"] ∧
      "Foo" ∉ recordArrayHeaders [.obj [("Foo", .str "bar"), ("Product", .str "Widget")]] ∧
      "Batch" ∈ recordArrayHeaders [.obj [("Foo", .str "bar"), ("Product", .str "Widget")]] :=
  ⟨rfl, rfl, by decide, by decide, by decide⟩

/-- C2 (amended): a record-array input is routed to the record-array
renderer, but its headers are always the fixed standard column set
`Product, Batch, HSN, Qty, MRP, Rate, Amount, SGST, CGST`, independent of
the rows; the scenario's headers contain `Product`, `Qty`, `Amount` in
first-seen order only because the fixed set lists them in that relative
order. -/
theorem claim2_amended :
    dataTableDispatch .image
        (.arr [.obj [("Product", .str "Widget"), ("Qty", .num 5),
                     ("Amount", .num (199 / 2))]]) = .recordArrayView ∧
      (∀ rows : List JVal,
        recordArrayHeaders rows =
          ["Product", "Batch", "HSN", "Qty", "MRP", "Rate", "Amount", "SGST", "CGST"]) ∧
      "Product" ∈ materialColumns ∧ "Qty" ∈ materialColumns ∧
      "Amount" ∈ materialColumns ∧
      materialColumns.indexOf ("Product") < materialColumns.indexOf ("Qty") ∧
      materialColumns.indexOf ("Qty") < materialColumns.indexOf ("Amount") :=
  ⟨rfl, fun _ => rfl, by decide, by decide, by decide, by decide, by decide⟩

/-- Conditional pairwise property of `List.merge`: if on elements satisfying
`S` the boolean relation decides `R` (positively and, flipped, negatively)
and `R` chains, then merging two `R`-pairwise lists of `S`-elements is
`R`-pairwise. -/
theorem pairwise_merge_cond {α : Type _} {le : α → α → Bool} {R : α → α → Prop}
    {S : α → Prop}
    (hTrans : ∀ a b c, S a → S b → S c → R a b → R b c → R a c)
    (hT : ∀ a b, S a → S b → le a b = true → R a b)
    (hF : ∀ a b, S a → S b → le a b = false → R b a) :
    ∀ (xs ys : List α), (∀ x ∈ xs, S x) → (∀ y ∈ ys, S y) →
      xs.Pairwise R → ys.Pairwise R → (List.merge xs ys le).Pairwise R
  | [], ys, _, _, _, hPy => by simpa using hPy
  | x :: xs, [], _, _, hPx, _ => by simpa using hPx
  | x :: xs, y :: ys, hSx, hSy, hPx, hPy => by
    have hSxx : S x := hSx x (List.mem_cons_self x xs)
    have hSyy : S y := hSy y (List.mem_cons_self y ys)
    rw [List.cons_merge_cons]
    cases hle : le x y with
    | true =>
      rw [if_pos rfl]
      refine List.pairwise_cons.mpr ⟨?_, ?_⟩
      · intro z hz
        rcases List.mem_merge.mp hz with hz | hz
        · exact (List.pairwise_cons.mp hPx).1 z hz
        · rcases List.mem_cons.mp hz with rfl | hz
          · exact hT x z hSxx hSyy hle
          · exact hTrans x y z hSxx hSyy (hSy z (List.mem_cons_of_mem y hz))
              (hT x y hSxx hSyy hle) ((List.pairwise_cons.mp hPy).1 z hz)
      · exact pairwise_merge_cond hTrans hT hF xs (y :: ys)
          (fun u hu => hSx u (List.mem_cons_of_mem x hu)) hSy
          (List.pairwise_cons.mp hPx).2 hPy
    | false =>
      rw [if_neg (by simp)]
      refine List.pairwise_cons.mpr ⟨?_, ?_⟩
      · intro z hz
        rcases List.mem_merge.mp hz with hz | hz
        · rcases List.mem_cons.mp hz with rfl | hz
          · exact hF z y hSxx hSyy hle
          · exact hTrans y x z hSyy hSxx (hSx z (List.mem_cons_of_mem x hz))
              (hF x y hSxx hSyy hle) ((List.pairwise_cons.mp hPx).1 z hz)
        · exact (List.pairwise_cons.mp hPy).1 z hz
      · exact pairwise_merge_cond hTrans hT hF (x :: xs) ys hSx
          (fun u hu => hSy u (List.mem_cons_of_mem y hu)) hPx
          (List.pairwise_cons.mp hPy).2
termination_by xs ys => (xs.length, ys.length)

/-- Length bounds for the two halves produced by `List.splitInTwo`. -/
theorem splitInTwo_halves_le (a b : α) (xs : List α) :
    (List.splitInTwo ⟨a :: b :: xs, rfl⟩).1.1.length ≤ xs.length + 1 ∧
      (List.splitInTwo ⟨a :: b :: xs, rfl⟩).2.1.length ≤ xs.length + 1 := by
  constructor
  · simp only [List.splitInTwo_fst, List.length_take, List.length_cons]
    omega
  · simp only [List.splitInTwo_snd, List.length_drop, List.length_cons]
    omega

/-- Conditional pairwise property of `List.mergeSort`, under the same local
(membership-restricted) hypotheses as `pairwise_merge_cond`. -/
theorem pairwise_mergeSort_cond {α : Type _} {le : α → α → Bool}
    {R : α → α → Prop} {S : α → Prop}
    (hTrans : ∀ a b c, S a → S b → S c → R a b → R b c → R a c)
    (hT : ∀ a b, S a → S b → le a b = true → R a b)
    (hF : ∀ a b, S a → S b → le a b = false → R b a) :
    ∀ (l : List α), (∀ x ∈ l, S x) → (l.mergeSort le).Pairwise R
  | [], _ => by simp
  | [a], _ => by simp
  | a :: b :: xs, hS => by
    have hsz := splitInTwo_halves_le a b xs
    have hap : (List.splitInTwo ⟨a :: b :: xs, rfl⟩).1.1 ++
        (List.splitInTwo ⟨a :: b :: xs, rfl⟩).2.1 = a :: b :: xs := by
      simp [List.splitInTwo_fst_append_splitInTwo_snd
        (⟨a :: b :: xs, rfl⟩ : { l : List α // l.length = xs.length + 1 + 1 })]
    have h1 : (List.splitInTwo ⟨a :: b :: xs, rfl⟩).1.1.length < xs.length + 1 + 1 :=
      Nat.lt_succ_of_le hsz.1
    have h2 : (List.splitInTwo ⟨a :: b :: xs, rfl⟩).2.1.length < xs.length + 1 + 1 :=
      Nat.lt_succ_of_le hsz.2
    have hm1 : ∀ x ∈ (List.splitInTwo ⟨a :: b :: xs, rfl⟩).1.1, S x := by
      intro x hx
      exact hS x (by rw [← hap]; exact List.mem_append_left _ hx)
    have hm2 : ∀ x ∈ (List.splitInTwo ⟨a :: b :: xs, rfl⟩).2.1, S x := by
      intro x hx
      exact hS x (by rw [← hap]; exact List.mem_append_right _ hx)
    rw [List.mergeSort]
    exact pairwise_merge_cond hTrans hT hF _ _
      (fun u hu => hm1 u (List.mem_mergeSort.mp hu))
      (fun u hu => hm2 u (List.mem_mergeSort.mp hu))
      (pairwise_mergeSort_cond hTrans hT hF _ hm1)
      (pairwise_mergeSort_cond hTrans hT hF _ hm2)
termination_by l => l.length

/-- Strict equality forces agreement of nullishness. -/
theorem strictEq_false_of_nullish_ne (a b : JVal)
    (h : isNullish a ≠ isNullish b) : strictEq a b = false := by
  cases a <;> cases b <;> simp_all [strictEq, isNullish]

/-- A nullish value compares after any non-nullish value, in both
directions. -/
theorem jsCompare_eq_one_of_nullish (dir : SortDir) (a b : JVal)
    (ha : isNullish a = true) (hb : isNullish b = false) :
    jsCompare dir a b = 1 := by
  have hse : strictEq a b = false := strictEq_false_of_nullish_ne a b (by simp [ha, hb])
  simp [jsCompare, hse, ha]

/-- A non-nullish value compares before any nullish value. -/
theorem jsCompare_eq_negOne_of_nullish (dir : SortDir) (a b : JVal)
    (ha : isNullish a = false) (hb : isNullish b = true) :
    jsCompare dir a b = -1 := by
  have hse : strictEq a b = false := strictEq_false_of_nullish_ne a b (by simp [ha, hb])
  simp [jsCompare, hse, ha, hb]

/-- Ascending comparison of two numbers is the numeric order. -/
theorem jsCompare_asc_num_num (qa qb : ℚ) :
    jsCompare .asc (.num qa) (.num qb) ≤ 0 ↔ qa ≤ qb := by
  rcases lt_trichotomy qa qb with h | h | h
  · have hne : qa ≠ qb := ne_of_lt h
    simp [jsCompare, strictEq, isNullish, jsLt, jsToNumberV, hne, h, le_of_lt h]
  · simp [jsCompare, strictEq, h]
  · have hne : qa ≠ qb := ne_of_gt h
    have hnlt : ¬qa < qb := not_lt.mpr (le_of_lt h)
    have hnle : ¬qa ≤ qb := not_le.mpr h
    simp [jsCompare, strictEq, isNullish, jsLt, jsToNumberV, hne, hnlt, hnle]

/-- Number-or-null cell values, the domain on which the view comparator is
consistent. -/
def isNumOrNull : JVal → Bool
  | .num _ => true
  | .null => true
  | _ => false

/-- On number-or-null values the ascending comparator is total. -/
theorem jsCompare_asc_total (v w : JVal) (hv : isNumOrNull v = true)
    (hw : isNumOrNull w = true) :
    jsCompare .asc v w ≤ 0 ∨ jsCompare .asc w v ≤ 0 := by
  cases v with
  | num qa =>
    cases w with
    | num qb =>
      rcases le_total qa qb with h | h
      · exact Or.inl ((jsCompare_asc_num_num qa qb).mpr h)
      · exact Or.inr ((jsCompare_asc_num_num qb qa).mpr h)
    | null =>
      left
      rw [jsCompare_eq_negOne_of_nullish .asc _ _ (by rfl) (by rfl)]
      omega
    | _ => simp_all [isNumOrNull]
  | null =>
    cases w with
    | num qb =>
      right
      rw [jsCompare_eq_negOne_of_nullish .asc _ _ (by rfl) (by rfl)]
      omega
    | null => left; simp [jsCompare, strictEq]
    | _ => simp_all [isNumOrNull]
  | _ => simp_all [isNumOrNull]

/-- On number-or-null values the ascending comparator is transitive. -/
theorem jsCompare_asc_trans (u v w : JVal) (hu : isNumOrNull u = true)
    (hv : isNumOrNull v = true) (hw : isNumOrNull w = true)
    (h1 : jsCompare .asc u v ≤ 0) (h2 : jsCompare .asc v w ≤ 0) :
    jsCompare .asc u w ≤ 0 := by
  cases u with
  | num qa =>
    cases w with
    | num qc =>
      cases v with
      | num qb =>
        exact (jsCompare_asc_num_num qa qc).mpr
          (le_trans ((jsCompare_asc_num_num qa qb).mp h1)
            ((jsCompare_asc_num_num qb qc).mp h2))
      | null =>
        exfalso
        rw [jsCompare_eq_one_of_nullish .asc _ _ (by rfl) (by rfl)] at h2
        omega
      | _ => simp_all [isNumOrNull]
    | null =>
      rw [jsCompare_eq_negOne_of_nullish .asc _ _ (by rfl) (by rfl)]
      omega
    | _ => simp_all [isNumOrNull]
  | null =>
    cases v with
    | num qb =>
      exfalso
      rw [jsCompare_eq_one_of_nullish .asc _ _ (by rfl) (by rfl)] at h1
      omega
    | null =>
      cases w with
      | num qc =>
        exfalso
        rw [jsCompare_eq_one_of_nullish .asc _ _ (by rfl) (by rfl)] at h2
        omega
      | null => simp [jsCompare, strictEq]
      | _ => simp_all [isNumOrNull]
    | _ => simp_all [isNumOrNull]
  | _ => simp_all [isNumOrNull]

/-- C3: for every table and sort column (once a sort column is selected),
rows whose value in that column is `null` or `undefined` are placed after
all rows with non-nullish values, regardless of direction; and the concrete
column `[3, null, 1, null, 2]` sorts ascending to `[1, 2, 3, null, null]`
and descending to `[3, 2, 1, null, null]`. -/
theorem claim3_nulls_sort_last :
    (∀ (dir : SortDir) (col : String) (rows : List JVal), col ≠ "" →
        (currentTableSort col dir rows).Pairwise
          (fun a b =>
            isNullish (a.get col) = true → isNullish (b.get col) = true)) ∧
      currentTableSort ("A") .asc
          [JVal.obj [("A", .num 3)], .obj [("A", .null)], .obj [("A", .num 1)],
           .obj [("A", .null)], .obj [("A", .num 2)]] =
        [JVal.obj [("A", .num 1)], .obj [("A", .num 2)], .obj [("A", .num 3)],
         .obj [("A", .null)], .obj [("A", .null)]] ∧
      currentTableSort ("A") .desc
          [JVal.obj [("A", .num 3)], .obj [("A", .null)], .obj [("A", .num 1)],
           .obj [("A", .null)], .obj [("A", .num 2)]] =
        [JVal.obj [("A", .num 3)], .obj [("A", .num 2)], .obj [("A", .num 1)],
         .obj [("A", .null)], .obj [("A", .null)]] := by
  refine ⟨?_, rfl, rfl⟩
  intro dir col rows hcol
  unfold currentTableSort
  by_cases hrows : rows.isEmpty
  · rw [if_pos (by simp [hrows])]
    rcases List.isEmpty_iff.mp hrows with rfl
    exact List.Pairwise.nil
  · rw [if_neg (by simp [hcol, hrows]), jsSort_eq_mergeSort]
    refine @pairwise_mergeSort_cond JVal (rowLe dir col)
      (fun a b =>
        isNullish (a.get col) = true → isNullish (b.get col) = true)
      (fun _ => True)
      (fun a b c _ _ _ hab hbc h => hbc (hab h)) ?_ ?_ rows (fun _ _ => trivial)
    · intro a b _ _ hle hna
      cases hnb : isNullish (b.get col) with
      | true => rfl
      | false =>
        exfalso
        have h1 := jsCompare_eq_one_of_nullish dir (a.get col) (b.get col) hna hnb
        have h2 : jsCompare dir (a.get col) (b.get col) ≤ 0 := by
          simpa [rowLe] using hle
        omega
    · intro a b _ _ hle hnb
      cases hna : isNullish (a.get col) with
      | true => rfl
      | false =>
        exfalso
        have h1 := jsCompare_eq_negOne_of_nullish dir (a.get col) (b.get col) hna hnb
        have h2 : ¬jsCompare dir (a.get col) (b.get col) ≤ 0 := by
          simpa [rowLe] using hle
        omega

/-- C3 (witness): the universal part applied to the concrete ascending
example. -/
theorem claim3_witness :
    (currentTableSort ("A") .asc
        [JVal.obj [("A", .num 3)], .obj [("A", .null)], .obj [("A", .num 1)],
         .obj [("A", .null)], .obj [("A", .num 2)]]).Pairwise
      (fun a b =>
        isNullish (a.get ("A")) = true → isNullish (b.get ("A")) = true) :=
  claim3_nulls_sort_last.1 .asc ("A") _ (by decide)

/-- C9 (counterexample): sorting ascending is not idempotent on the code's
comparator once a column mixes a number with a numeric string: for the
column values `[9, "9"]` the comparator returns `1` in both directions
(`9 === "9"` is false, and neither `9 < "9"` nor `"9" < 9` holds), which is
an inconsistent comparator, and the stable merge sort model swaps the rows
on every pass. -/
theorem claim9_counterexample :
    currentTableSort ("A") .asc
        (currentTableSort ("A") .asc
          [JVal.obj [("A", .num 9)], .obj [("A", .str "9")]]) ≠
      currentTableSort ("A") .asc
        [JVal.obj [("A", .num 9)], .obj [("A", .str "9")]] := by
  intro h
  have h2 : ([JVal.obj [("A", .num 9)], .obj [("A", .str "9")]] : List JVal) =
      [JVal.obj [("A", .str "9")], .obj [("A", .num 9)]] := h
  simp at h2

/-- C9 (amended): sorting by a column ascending is idempotent whenever the
column's values are consistently comparable — here, every value a number or
`null`; with mixed value types (e.g. a number and a numeric string) the
comparator is inconsistent, the ECMAScript sort order is
implementation-defined, and the stable-sort model is not idempotent. -/
theorem claim9_amended (col : String) (rows : List JVal) (hcol : col ≠ "")
    (hvals : ∀ r ∈ rows, isNumOrNull (r.get col) = true) :
    currentTableSort col .asc (currentTableSort col .asc rows) =
      currentTableSort col .asc rows := by
  by_cases hrows : rows.isEmpty
  · rcases List.isEmpty_iff.mp hrows with rfl
    simp [currentTableSort]
  · have step1 : currentTableSort col .asc rows =
        rows.mergeSort (rowLe .asc col) := by
      unfold currentTableSort
      rw [if_neg (by simp [hcol, hrows]), jsSort_eq_mergeSort]
    have hPw : (rows.mergeSort (rowLe .asc col)).Pairwise
        (fun a b => rowLe .asc col a b = true) := by
      refine @pairwise_mergeSort_cond JVal (rowLe .asc col)
        (fun a b => rowLe .asc col a b = true)
        (fun r => isNumOrNull (r.get col) = true) ?_ (fun _ _ _ _ h => h)
        ?_ rows hvals
      · intro a b c ha hb hc h1 h2
        have h1q : jsCompare .asc (a.get col) (b.get col) ≤ 0 := by
          simpa [rowLe] using h1
        have h2q : jsCompare .asc (b.get col) (c.get col) ≤ 0 := by
          simpa [rowLe] using h2
        simpa [rowLe] using jsCompare_asc_trans _ _ _ ha hb hc h1q h2q
      · intro a b ha hb h
        have hq : ¬jsCompare .asc (a.get col) (b.get col) ≤ 0 := by
          simpa [rowLe] using h
        rcases jsCompare_asc_total (a.get col) (b.get col) ha hb with h2 | h2
        · exact absurd h2 hq
        · simpa [rowLe] using h2
    have hlen : (rows.mergeSort (rowLe .asc col)).isEmpty = false := by
      cases hml : rows.mergeSort (rowLe .asc col) with
      | nil =>
        exfalso
        have := (List.mergeSort_perm rows (rowLe .asc col)).length_eq
        rw [hml] at this
        cases hrc : rows with
        | nil => rw [hrc] at hrows; simp at hrows
        | cons r t => rw [hrc] at this; simp at this
      | cons r t => rfl
    rw [step1]
    unfold currentTableSort
    rw [if_neg (by simp [hcol, hlen]), jsSort_eq_mergeSort]
    exact List.mergeSort_of_sorted hPw

/-- C9 (witness): idempotence on a concrete numeric column with a null. -/
theorem claim9_witness :
    currentTableSort ("A") .asc
        (currentTableSort ("A") .asc
          [JVal.obj [("A", .num 2)], .obj [("A", .null)], .obj [("A", .num 1)]]) =
      currentTableSort ("A") .asc
        [JVal.obj [("A", .num 2)], .obj [("A", .null)], .obj [("A", .num 1)]] :=
  claim9_amended ("A")
    [JVal.obj [("A", .num 2)], .obj [("A", .null)], .obj [("A", .num 1)]]
    (by decide)
    (by
      intro r hr
      simp only [List.mem_cons, List.not_mem_nil, or_false] at hr
      rcases hr with rfl | rfl | rfl <;> rfl)

/-- The string content of a string cell (empty for the non-string cells the
round-trip claim excuses as formatting). -/
def cellStr (v : JVal) : List Char :=
  match v with
  | .str s => s.data
  | _ => []

/-- Splitting a separator-free list yields it whole. -/
theorem splitOnChar_not_mem (c : Char) (l : List Char) (h : c ∉ l) :
    splitOnChar c l = [l] := by
  induction l with
  | nil => rfl
  | cons x rest ih =>
    have hx : x ≠ c := fun hc => h (hc ▸ List.mem_cons_self x rest)
    have hr : c ∉ rest := fun hc => h (List.mem_cons_of_mem x hc)
    simp only [splitOnChar, if_neg hx, ih hr, consHead]

/-- Splitting after a separator-free prefix peels off that prefix. -/
theorem splitOnChar_append (c : Char) (l rest : List Char) (h : c ∉ l) :
    splitOnChar c (l ++ c :: rest) = l :: splitOnChar c rest := by
  induction l with
  | nil => simp [splitOnChar]
  | cons x t ih =>
    have hx : x ≠ c := fun hc => h (hc ▸ List.mem_cons_self x t)
    have ht : c ∉ t := fun hc => h (List.mem_cons_of_mem x hc)
    simp only [List.cons_append, List.append_eq, splitOnChar, if_neg hx, ih ht, consHead]

/-- Joining then splitting recovers the pieces when none contains the
separator. -/
theorem splitOnChar_joinWith (c : Char) :
    ∀ (ls : List (List Char)), ls ≠ [] → (∀ l ∈ ls, c ∉ l) →
      splitOnChar c (joinWith c ls) = ls
  | [], h, _ => absurd rfl h
  | [l], _, hmem => by
    simp only [joinWith, List.flatMap_nil, List.append_nil]
    exact splitOnChar_not_mem c l (hmem l (List.mem_cons_self l []))
  | l :: l2 :: rest, _, hmem => by
    have hstep : joinWith c (l :: l2 :: rest) = l ++ c :: joinWith c (l2 :: rest) := by
      simp [joinWith]
    rw [hstep, splitOnChar_append c l _ (hmem l (List.mem_cons_self _ _)),
      splitOnChar_joinWith c (l2 :: rest) (by simp)
        (fun x hx => hmem x (List.mem_cons_of_mem l hx))]

/-- Members of a join are the separator or members of a piece. -/
theorem mem_joinWith (c : Char) (x : Char) :
    ∀ (ls : List (List Char)), x ∈ joinWith c ls →
      x = c ∨ ∃ l ∈ ls, x ∈ l
  | [], h => by simp [joinWith] at h
  | l :: rest, h => by
    simp only [joinWith] at h
    rcases List.mem_append.mp h with h | h
    · exact Or.inr ⟨l, List.mem_cons_self l rest, h⟩
    · rcases List.mem_flatMap.mp h with ⟨l2, hl2, hx⟩
      rcases List.mem_cons.mp hx with rfl | hx
      · exact Or.inl rfl
      · exact Or.inr ⟨l2, List.mem_cons_of_mem l hl2, hx⟩

/-- Joining two or more pieces peels the first piece and a separator. -/
theorem joinWith_cons_cons (c : Char) (x y : List Char) (r : List (List Char)) :
    joinWith c (x :: y :: r) = x ++ c :: joinWith c (y :: r) := by
  simp [joinWith]


/-- A comma- and quote-free plain field followed by a comma parses off
whole. -/
theorem pfGo_plain_append (f : List Char) :
    ∀ (acc rest : List Char), ',' ∉ f → '"' ∉ f →
      pfGo .plain acc (f ++ ',' :: rest) =
        (acc.reverse ++ f) :: pfGo .plain [] rest := by
  induction f with
  | nil => intro acc rest _ _; simp [pfGo]
  | cons x t ih =>
    intro acc rest hc hq
    have hx1 : x ≠ '"' := fun hx => hq (hx ▸ List.mem_cons_self x t)
    have hx2 : x ≠ ',' := fun hx => hc (hx ▸ List.mem_cons_self x t)
    have ht := ih (x :: acc) rest (fun hm => hc (List.mem_cons_of_mem x hm))
      (fun hm => hq (List.mem_cons_of_mem x hm))
    simp only [List.cons_append, pfGo, if_neg hx1, if_neg hx2, List.append_eq]
    rw [ht]
    simp

/-- A comma- and quote-free plain field at the end of the line parses off
whole. -/
theorem pfGo_plain_end (f : List Char) :
    ∀ (acc : List Char), ',' ∉ f → '"' ∉ f →
      pfGo .plain acc f = [acc.reverse ++ f] := by
  induction f with
  | nil => intro acc _ _; simp [pfGo]
  | cons x t ih =>
    intro acc hc hq
    have hx1 : x ≠ '"' := fun hx => hq (hx ▸ List.mem_cons_self x t)
    have hx2 : x ≠ ',' := fun hx => hc (hx ▸ List.mem_cons_self x t)
    have ht := ih (x :: acc) (fun hm => hc (List.mem_cons_of_mem x hm))
      (fun hm => hq (List.mem_cons_of_mem x hm))
    simp only [pfGo, if_neg hx1, if_neg hx2]
    rw [ht]
    simp

/-- Scanning the quote-doubled body of a field, the closing quote and a
comma recovers the field. -/
theorem pfGo_quoted_escQuotes (s : List Char) :
    ∀ (acc rest : List Char),
      pfGo .quoted acc (escQuotes s ++ '"' :: ',' :: rest) =
        (acc.reverse ++ s) :: pfGo .plain [] rest := by
  induction s with
  | nil =>
    intro acc rest
    simp [escQuotes, pfGo]
  | cons c t ih =>
    intro acc rest
    by_cases hc : c = '"'
    · subst hc
      rw [show escQuotes ('"' :: t) = '"' :: '"' :: escQuotes t from by simp [escQuotes]]
      simp only [List.cons_append, pfGo, List.append_eq]
      rw [ih ('"' :: acc) rest]
      simp
    · rw [show escQuotes (c :: t) = c :: escQuotes t from by simp [escQuotes, hc]]
      simp only [List.cons_append]
      rw [show pfGo .quoted acc (c :: (escQuotes t ++ '"' :: ',' :: rest)) =
          pfGo .quoted (c :: acc) (escQuotes t ++ '"' :: ',' :: rest) from by
        simp [pfGo, hc]]
      rw [ih (c :: acc) rest]
      simp

/-- Same, at the end of the line. -/
theorem pfGo_quoted_escQuotes_end (s : List Char) :
    ∀ (acc : List Char),
      pfGo .quoted acc (escQuotes s ++ ['"']) = [acc.reverse ++ s] := by
  induction s with
  | nil =>
    intro acc
    simp [escQuotes, pfGo]
  | cons c t ih =>
    intro acc
    by_cases hc : c = '"'
    · subst hc
      rw [show escQuotes ('"' :: t) = '"' :: '"' :: escQuotes t from by simp [escQuotes]]
      simp only [List.cons_append, pfGo, List.append_eq]
      rw [ih ('"' :: acc)]
      simp
    · rw [show escQuotes (c :: t) = c :: escQuotes t from by simp [escQuotes, hc]]
      simp only [List.cons_append]
      rw [show pfGo .quoted acc (c :: (escQuotes t ++ ['"'])) =
          pfGo .quoted (c :: acc) (escQuotes t ++ ['"']) from by
        simp [pfGo, hc]]
      rw [ih (c :: acc)]
      simp

/-- A string cell without commas and quotes is emitted verbatim. -/
theorem csvField_str_plain (s : String)
    (h : (s.data.contains ',' || s.data.contains '"') = false) :
    csvField (.str s) = s.data := by
  simp only [csvField, h, Bool.false_eq_true, if_false, if_neg]
  by_cases hs : s = ""
  · subst hs; simp [truthy]
  · simp [truthy, hs]

/-- A quote at a plain position switches the scanner to quoted mode. -/
theorem pfGo_plain_quote (acc rest : List Char) :
    pfGo .plain acc ('"' :: rest) = pfGo .quoted acc rest := by
  simp [pfGo]

/-- One encoded string field followed by a comma parses back to the cell. -/
theorem parseFields_csvField (s : String) (rest : List Char) :
    pfGo .plain [] (csvField (.str s) ++ ',' :: rest) =
      s.data :: pfGo .plain [] rest := by
  cases h : s.data.contains ',' || s.data.contains '"' with
  | true =>
    have hfield : csvField (.str s) = '"' :: escQuotes s.data ++ ['"'] := by
      simp only [csvField]
      rw [h]
      simp
    rw [hfield]
    have : ('"' :: escQuotes s.data ++ ['"']) ++ ',' :: rest =
        '"' :: (escQuotes s.data ++ '"' :: ',' :: rest) := by simp
    rw [this, pfGo_plain_quote, pfGo_quoted_escQuotes]
    simp
  | false =>
    have h2 := h
    simp only [Bool.or_eq_false_iff] at h2
    have hc : ',' ∉ s.data := by
      have := h2.1; simpa using this
    have hq : '"' ∉ s.data := by
      have := h2.2; simpa using this
    rw [csvField_str_plain s h, pfGo_plain_append s.data [] rest hc hq]
    simp

/-- One encoded string field at the end of the line parses back to the
cell. -/
theorem parseFields_csvField_end (s : String) :
    pfGo .plain [] (csvField (.str s)) = [s.data] := by
  cases h : s.data.contains ',' || s.data.contains '"' with
  | true =>
    have hfield : csvField (.str s) = '"' :: escQuotes s.data ++ ['"'] := by
      simp only [csvField]
      rw [h]
      simp
    rw [hfield, List.cons_append, pfGo_plain_quote, pfGo_quoted_escQuotes_end]
    simp
  | false =>
    have h2 := h
    simp only [Bool.or_eq_false_iff] at h2
    have hc : ',' ∉ s.data := by
      have := h2.1; simpa using this
    have hq : '"' ∉ s.data := by
      have := h2.2; simpa using this
    rw [csvField_str_plain s h, pfGo_plain_end s.data [] hc hq]
    simp

/-- A whole data line of string cells parses back to the cells. -/
theorem parseFields_csvLine :
    ∀ (headers : List String) (row : JVal), headers ≠ [] →
      (∀ h ∈ headers, ∃ s, row.get h = .str s) →
      parseFields (csvLine headers row) =
        headers.map (fun h => cellStr (row.get h))
  | [], _, hne, _ => absurd rfl hne
  | [h], row, _, hcell => by
    obtain ⟨s, hs⟩ := hcell h (List.mem_cons_self h [])
    simp only [csvLine, List.map_cons, List.map_nil, joinWith, List.flatMap_nil,
      List.append_nil, parseFields]
    rw [hs, parseFields_csvField_end]
    simp [cellStr]
  | h1 :: h2 :: t, row, _, hcell => by
    obtain ⟨s1, hs1⟩ := hcell h1 (List.mem_cons_self h1 _)
    have hrest := parseFields_csvLine (h2 :: t) row (by simp)
      (fun h hm => hcell h (List.mem_cons_of_mem h1 hm))
    simp only [csvLine, List.map_cons] at hrest ⊢
    rw [joinWith_cons_cons]
    simp only [parseFields] at hrest ⊢
    rw [hs1, parseFields_csvField, hrest]
    simp [cellStr, hs1]

/-- The header line parses back to the headers when they avoid commas and
quotes. -/
theorem parseFields_headerLine :
    ∀ (headers : List String), headers ≠ [] →
      (∀ h ∈ headers, ',' ∉ h.data ∧ '"' ∉ h.data) →
      parseFields (joinWith ',' (headers.map String.data)) =
        headers.map String.data
  | [], hne, _ => absurd rfl hne
  | [h], _, hok => by
    simp only [List.map_cons, List.map_nil, joinWith, List.flatMap_nil,
      List.append_nil, parseFields]
    exact pfGo_plain_end h.data [] (hok h (by simp)).1 (hok h (by simp)).2
  | h1 :: h2 :: t, _, hok => by
    have hrest := parseFields_headerLine (h2 :: t) (by simp)
      (fun h hm => hok h (List.mem_cons_of_mem h1 hm))
    simp only [List.map_cons] at hrest ⊢
    rw [joinWith_cons_cons]
    simp only [parseFields] at hrest ⊢
    rw [pfGo_plain_append h1.data [] _ (hok h1 (by simp)).1 (hok h1 (by simp)).2,
      hrest]
    simp

/-- Encoding a newline-free string cell introduces no newline. -/
theorem csvField_no_newline (s : String) (h : '\n' ∉ s.data) :
    '\n' ∉ csvField (.str s) := by
  intro hmem
  cases hct : s.data.contains ',' || s.data.contains '"' with
  | true =>
    rw [show csvField (.str s) = '"' :: escQuotes s.data ++ ['"'] from by
      simp only [csvField]; rw [hct]; simp] at hmem
    rcases List.mem_append.mp hmem with hmem | hmem
    · rcases List.mem_cons.mp hmem with heq | hmem
      · exact absurd heq (by decide)
      · rcases List.mem_flatMap.mp hmem with ⟨c, hc, hx⟩
        by_cases hcq : c = '"'
        · rw [if_pos hcq] at hx
          rcases List.mem_cons.mp hx with heq | hx
          · exact absurd heq (by decide)
          · rcases List.mem_cons.mp hx with heq | hx
            · exact absurd heq (by decide)
            · cases hx
        · rw [if_neg hcq] at hx
          rcases List.mem_cons.mp hx with heq | hx
          · exact h (heq ▸ hc)
          · cases hx
    · rcases List.mem_cons.mp hmem with heq | hmem
      · exact absurd heq (by decide)
      · cases hmem
  | false =>
    rw [csvField_str_plain s hct] at hmem
    exact h hmem

/-- A data line over newline-free string cells contains no newline. -/
theorem csvLine_no_newline (headers : List String) (row : JVal)
    (hcell : ∀ h ∈ headers, ∃ s, row.get h = .str s ∧ '\n' ∉ s.data) :
    '\n' ∉ csvLine headers row := by
  intro hmem
  rcases mem_joinWith ',' '\n' _ hmem with heq | ⟨l, hl, hx⟩
  · exact absurd heq (by decide)
  · rcases List.mem_map.mp hl with ⟨h, hh, rfl⟩
    obtain ⟨s, hs, hns⟩ := hcell h hh
    rw [hs] at hx
    exact csvField_no_newline s hns hx

/-- The header line over comma-, quote- and newline-free headers contains no
newline. -/
theorem headerLine_no_newline (headers : List String)
    (hok : ∀ h ∈ headers, '\n' ∉ h.data) :
    '\n' ∉ joinWith ',' (headers.map String.data) := by
  intro hmem
  rcases mem_joinWith ',' '\n' _ hmem with heq | ⟨l, hl, hx⟩
  · exact absurd heq (by decide)
  · rcases List.mem_map.mp hl with ⟨h, hh, rfl⟩
    exact hok h hh hx

/-- C4 (counterexample): the CSV round trip does not preserve the grid: a
string cell containing a newline is emitted unquoted, so the parse-back of
the one-row table `[{h: "a\nb"}]` has two data rows instead of one. -/
theorem claim4_counterexample :
    specCsvParse (csvContent ["h"] [.obj [("h", .str "a\nb")]]) =
        [[("h").data], [("a").data], [("b").data]] ∧
      specCsvParse (csvContent ["h"] [.obj [("h", .str "a\nb")]]) ≠
        [[("h").data], [("a\nb").data]] :=
  ⟨rfl, by decide⟩

/-- C4 (amended): the round trip holds for the grid of string cells once
newlines are excluded: for nonempty headers free of commas, quotes and
newlines, and rows whose cells under every header are newline-free strings,
parsing the emitted CSV (splitting lines, then commas respecting quotes)
returns exactly the header row followed by the N rows of M cell strings. -/
theorem claim4_amended (headers : List String) (rows : List JVal)
    (hne : headers ≠ [])
    (hhead : ∀ h ∈ headers, ',' ∉ h.data ∧ '"' ∉ h.data ∧ '\n' ∉ h.data)
    (hcells : ∀ r ∈ rows, ∀ h ∈ headers, ∃ s, r.get h = .str s ∧ '\n' ∉ s.data) :
    specCsvParse (csvContent headers rows) =
      headers.map String.data ::
        rows.map (fun r => headers.map (fun h => cellStr (r.get h))) := by
  unfold specCsvParse csvContent
  rw [splitOnChar_joinWith '\n'
      (joinWith ',' (headers.map String.data) :: rows.map (csvLine headers))
      (by simp)
      (by
        intro l hl
        rcases List.mem_cons.mp hl with rfl | hl
        · exact headerLine_no_newline headers (fun h hh => (hhead h hh).2.2)
        · rcases List.mem_map.mp hl with ⟨r, hr, rfl⟩
          exact csvLine_no_newline headers r
            (fun h hh => hcells r hr h hh))]
  simp only [List.map_cons, List.map_map]
  congr 1
  · exact parseFields_headerLine headers hne
      (fun h hh => ⟨(hhead h hh).1, (hhead h hh).2.1⟩)
  · refine List.map_congr_left ?_
    intro r hr
    exact parseFields_csvLine headers r hne
      (fun h hh => ⟨(hcells r hr h hh).choose, (hcells r hr h hh).choose_spec.1⟩)

/-- C4 (witness): the amended round trip on a concrete 2×2 table exercising
comma and quote quoting. -/
theorem claim4_witness :
    specCsvParse (csvContent ["h1", "h2"]
        [.obj [("h1", .str "a,b"), ("h2", .str "say \"hi\"")],
         .obj [("h1", .str ""), ("h2", .str "z")]]) =
      [("h1").data, ("h2").data] ::
        [[("a,b").data, ("say \"hi\"").data], [("").data, ("z").data]] := by
  have h := claim4_amended ["h1", "h2"]
    [.obj [("h1", .str "a,b"), ("h2", .str "say \"hi\"")],
     .obj [("h1", .str ""), ("h2", .str "z")]]
    (by decide)
    (by
      intro h hh
      simp only [List.mem_cons, List.not_mem_nil, or_false] at hh
      rcases hh with rfl | rfl <;> exact ⟨by decide, by decide, by decide⟩)
    (by
      intro r hr h hh
      simp only [List.mem_cons, List.not_mem_nil, or_false] at hr hh
      rcases hr with rfl | rfl <;> rcases hh with rfl | rfl
      · exact ⟨"a,b", rfl, by decide⟩
      · exact ⟨"say \"hi\"", rfl, by decide⟩
      · exact ⟨"", rfl, by decide⟩
      · exact ⟨"z", rfl, by decide⟩)
  simpa using h

/-- Is the value a string (`typeof value === 'string'`)? -/
def JVal.isStr : JVal → Bool
  | .str _ => true
  | _ => false

/-- C5: the CSV encoder wraps every string field containing a comma or a
double quote in double quotes with internal quotes doubled (so that the
field parses back losslessly), renders nullish fields as the empty string,
and emits a header line followed by exactly one line per record. -/
theorem claim5_csv_encoding :
    (∀ s : String, (',' ∈ s.data ∨ '"' ∈ s.data) →
        csvField (.str s) = '"' :: escQuotes s.data ++ ['"'] ∧
          parseFields (csvField (.str s)) = [s.data]) ∧
      csvField .null = [] ∧ csvField .undefined = [] ∧
      (∀ (headers : List String) (rows : List JVal), headers ≠ [] →
        (∀ h ∈ headers, '\n' ∉ h.data) →
        (∀ r ∈ rows, ∀ h ∈ headers, ∃ s, r.get h = .str s ∧ '\n' ∉ s.data) →
        (splitOnChar '\n' (csvContent headers rows)).length = 1 + rows.length) := by
  refine ⟨?_, rfl, rfl, ?_⟩
  · intro s hs
    have hct : (s.data.contains ',' || s.data.contains '"') = true := by
      rcases hs with hm | hm <;> simp [hm]
    constructor
    · simp only [csvField]
      rw [hct]
      simp
    · exact parseFields_csvField_end s
  · intro headers rows hne hhead hcells
    unfold csvContent
    rw [splitOnChar_joinWith '\n'
        (joinWith ',' (headers.map String.data) :: rows.map (csvLine headers))
        (by simp)
        (by
          intro l hl
          rcases List.mem_cons.mp hl with rfl | hl
          · exact headerLine_no_newline headers hhead
          · rcases List.mem_map.mp hl with ⟨r, hr, rfl⟩
            exact csvLine_no_newline headers r (fun h hh => hcells r hr h hh))]
    simp [Nat.add_comm]

/-- C5 (witness): the quoting rule and round trip on `"a,b"`, and the line
count on a one-row table. -/
theorem claim5_witness :
    (csvField (.str "a,b") = '"' :: escQuotes ("a,b").data ++ ['"'] ∧
        parseFields (csvField (.str "a,b")) = [("a,b").data]) ∧
      (splitOnChar '\n'
          (csvContent ["h"] [.obj [("h", .str "x")]])).length = 1 + 1 :=
  ⟨claim5_csv_encoding.1 ("a,b") (Or.inl (by decide)),
    claim5_csv_encoding.2.2.2 ["h"] [.obj [("h", .str "x")]] (by decide)
      (by
        intro h hh
        simp only [List.mem_cons, List.not_mem_nil, or_false] at hh
        subst hh
        decide)
      (by
        intro r hr h hh
        simp only [List.mem_cons, List.not_mem_nil, or_false] at hr hh
        subst hr
        subst hh
        exact ⟨"x", rfl, by decide⟩)⟩

/-- C10: every falsy cell value — `0`, `false`, the empty string, `null`,
`undefined` — is emitted as the empty string (so an exported zero is
indistinguishable from a missing cell), and only string-typed values ever
take the quoting branch: a non-string is rendered by plain string conversion
or the empty string. -/
theorem claim10_falsy_cells :
    (∀ v : JVal, truthy v = false → csvField v = []) ∧
      csvField (.num 0) = [] ∧ csvField (.bool false) = [] ∧
      csvField (.str "") = [] ∧ csvField .null = [] ∧ csvField .undefined = [] ∧
      csvField (.num 0) = csvField .undefined ∧
      (∀ v : JVal, v.isStr = false →
        csvField v = if truthy v then jsToString v else []) := by
  refine ⟨?_, rfl, rfl, rfl, rfl, rfl, rfl, ?_⟩
  · intro v hv
    cases v with
    | str s =>
      have hs : s = "" := by simpa [truthy] using hv
      subst hs
      rfl
    | null => rfl
    | undefined => rfl
    | bool b => simp [csvField, hv]
    | num q => simp [csvField, hv]
    | arr xs => simp [truthy] at hv
    | obj l => simp [truthy] at hv
  · intro v hv
    cases v with
    | str s => simp [JVal.isStr] at hv
    | null => rfl
    | undefined => rfl
    | bool b => rfl
    | num q => rfl
    | arr xs => rfl
    | obj l => rfl

/-- C10 (witness): the falsy rule applied to the number `0`. -/
theorem claim10_witness : csvField (.num 0) = [] :=
  claim10_falsy_cells.1 (.num 0) (by decide)

/-- Assigning a key makes it look up to the assigned value. -/
theorem lookupField_objSet_self (l : List (String × JVal)) (k : String)
    (v : JVal) : lookupField (objSet l k v) k = v := by
  induction l with
  | nil => simp [objSet, lookupField]
  | cons kv rest ih =>
    by_cases hk : kv.1 = k
    · simp [objSet, hk, lookupField]
    · simp [objSet, hk, lookupField, ih]

/-- Assigning one key leaves the lookup of any other key unchanged. -/
theorem lookupField_objSet_ne (l : List (String × JVal)) (k k2 : String)
    (v : JVal) (h : k2 ≠ k) :
    lookupField (objSet l k v) k2 = lookupField l k2 := by
  induction l with
  | nil => simp [objSet, lookupField, Ne.symm h]
  | cons kv rest ih =>
    by_cases hk : kv.1 = k
    · have hne : kv.1 ≠ k2 := by
        rw [hk]
        exact Ne.symm h
      simp [objSet, hk, lookupField, hne, Ne.symm h]
    · by_cases hk2 : kv.1 = k2
      · simp [objSet, hk, lookupField, hk2, h]
      · simp [objSet, hk, lookupField, hk2, ih]

/-- Folding assignments over keys not containing `f` leaves `f`'s lookup
unchanged. -/
theorem lookupField_foldl_objSet_not_mem (g : String → JVal)
    (ks : List String) (f : String) (hf : f ∉ ks) :
    ∀ (l : List (String × JVal)),
      lookupField (ks.foldl (fun acc k => objSet acc k (g k)) l) f =
        lookupField l f := by
  induction ks with
  | nil => intro l; rfl
  | cons k rest ih =>
    intro l
    have hfk : f ≠ k := fun he => hf (he ▸ List.mem_cons_self k rest)
    have hfr : f ∉ rest := fun hm => hf (List.mem_cons_of_mem k hm)
    simp only [List.foldl_cons]
    rw [ih hfr, lookupField_objSet_ne l k f (g k) hfk]

/-- Folding assignments over distinct keys makes each assigned key look up
to its assigned value. -/
theorem lookupField_foldl_objSet_mem (g : String → JVal) :
    ∀ (ks : List String) (f : String), ks.Nodup → f ∈ ks →
      ∀ (l : List (String × JVal)),
        lookupField (ks.foldl (fun acc k => objSet acc k (g k)) l) f = g f
  | [], _, _, hf, _ => absurd hf (List.not_mem_nil _)
  | k :: rest, f, hnd, hf, l => by
    simp only [List.foldl_cons]
    rcases List.mem_cons.mp hf with rfl | hf
    · have hrest : f ∉ rest := (List.nodup_cons.mp hnd).1
      rw [lookupField_foldl_objSet_not_mem g rest f hrest,
        lookupField_objSet_self]
    · exact lookupField_foldl_objSet_mem g rest f (List.nodup_cons.mp hnd).2 hf _

/-- C6: for a payload dispatched to the keyed-invoice view, preparing any
row of its `data` array coerces each of the numeric fields `Qty`, `MRP`,
`Rate`, `Amount`, `SGST`, `CGST`: a string-typed value becomes the
`parseFloat` of the string, with `0` substituted when the parse fails
(`NaN`), and an absent field becomes `0`; being a total function, the
coercion never throws. -/
theorem claim6_numeric_coercion (ft : FileType) (raw : JVal)
    (rows : List JVal) (i : Nat) (r : JVal) (f : String)
    (hdisp : dataTableDispatch ft raw = .keyedInvoiceView)
    (hdata : raw.get ("data") = .arr rows)
    (hr : r ∈ rows)
    (hf : f ∈ numericFields) :
    (∀ s : String, r.get f = .str s →
        (materialRow i r).get f =
          .num (match jsParseFloat s.data with
                | some q => q
                | none => 0)) ∧
      (r.get f = .undefined → (materialRow i r).get f = .num 0) := by
  have hget : (materialRow i r).get f = coerceNumField (r.get f) := by
    simp only [materialRow, JVal.get]
    exact lookupField_foldl_objSet_mem
      (fun f2 => coerceNumField (r.get f2)) numericFields f (by decide) hf _
  constructor
  · intro s hs
    rw [hget, hs]
    rfl
  · intro hs
    rw [hget, hs]
    rfl

/-- C6 (witness): coercion on a concrete keyed payload whose row has a
numeric string `"12x"` (parsed to `12`) under `Qty`, and no `Amount` field
(coerced to `0`). -/
theorem claim6_witness :
    ((materialRow 0 (.obj [("Qty", .str "12x")])).get ("Qty") =
        .num (match jsParseFloat (("12x" : String)).data with
              | some q => q
              | none => 0)) ∧
      (materialRow 0 (.obj [("Qty", .str "12x")])).get ("Amount") = .num 0 :=
  ⟨(claim6_numeric_coercion .image
      (.obj [("data", .arr [.obj [("Qty", .str "12x")]]),
             ("metadata", .obj [("standardHeaders", .arr [.str "Qty"])])])
      [.obj [("Qty", .str "12x")]] 0 (.obj [("Qty", .str "12x")]) ("Qty")
      rfl rfl (List.mem_cons_self _ _) (by decide)).1 ("12x") rfl,
    (claim6_numeric_coercion .image
      (.obj [("data", .arr [.obj [("Qty", .str "12x")]]),
             ("metadata", .obj [("standardHeaders", .arr [.str "Qty"])])])
      [.obj [("Qty", .str "12x")]] 0 (.obj [("Qty", .str "12x")]) ("Amount")
      rfl rfl (List.mem_cons_self _ _) (by decide)).2 rfl⟩

/-- C7: a string payload that is not valid JSON has its parse failure
caught (the memo falls back to `null`) and the view renders the visible
"no structured data" message; the embedded render decision is a total
function, so no such input can throw. -/
theorem claim7_parse_error_message (s : String) (h : jsonParse s = none) :
    structuredViewShowsNoData (.str s) = true := by
  simp [structuredViewShowsNoData, parsedDataOf, h, truthy]

/-- C7 (witness): the theorem applied to the invalid payload
`"not json"`. -/
theorem claim7_witness : structuredViewShowsNoData (.str "not json") = true :=
  claim7_parse_error_message ("not json") rfl

/-- C8: heuristic extraction applied to
`"Total 1,234.56 paid on 05/06/2024"` yields exactly one amount, with
numeric value `1234.56` (`123456/100`, the thousands separator stripped
before `parseFloat`), and exactly one date, the raw string
`"05/06/2024"`. -/
theorem claim8_extraction_scenario :
    amountsOf ("Total 1,234.56 paid on 05/06/2024") =
        [some (mkRat 123456 100)] ∧
      datesOf ("Total 1,234.56 paid on 05/06/2024") = ["05/06/2024"] :=
  ⟨rfl, rfl⟩
